import Mathlib

/-!
Verification of the console-cleanup tool (`src/console_cleanup.py`).

The script is modelled as pure functions over `List Char` (file contents as
character lists, file paths as lists of path segments).  The regular
expressions used by `replace_console_statements` are all of the two shapes

  `console\.M\(\s*([^,)]+),\s*([^)]+)\)`   (two-argument form)
  `console\.M\(\s*([^)]+)\)`               (one-argument form)

and are modelled by dedicated matchers (`matchTwo`, `matchOne`) that
reproduce Python's leftmost, greedy-with-backtracking semantics for these
shapes, together with a `re.subn`-style scanning loop (`subnTwo`, `subnOne`).
-/

/-- Prefix test: `startsWithL pat s` holds when `pat` is a prefix of `s`. -/
def startsWithL : List Char → List Char → Bool
  | [], _ => true
  | _ :: _, [] => false
  | a :: as, b :: bs => a == b && startsWithL as bs

/-- Substring test modelling Python's `pat in s`. -/
def containsSub (pat : List Char) : List Char → Bool
  | [] => startsWithL pat []
  | c :: cs => startsWithL pat (c :: cs) || containsSub pat cs

/-- Suffix test: `endsWithL pat s` holds when `pat` is a suffix of `s`. -/
def endsWithL (pat s : List Char) : Bool :=
  startsWithL pat.reverse s.reverse

/-- Span: the longest prefix of `s` whose characters satisfy `p`, and the rest. -/
def spanP (p : Char → Bool) : List Char → List Char × List Char
  | [] => ([], [])
  | c :: cs =>
    if p c then
      let r := spanP p cs
      (c :: r.1, r.2)
    else ([], c :: cs)

theorem startsWithL_self_append (l r : List Char) : startsWithL l (l ++ r) = true := by
  induction l with
  | nil => rfl
  | cons a as ih => simp [startsWithL, ih]

theorem startsWithL_iff (p s : List Char) :
    startsWithL p s = true ↔ ∃ r, s = p ++ r := by
  induction p generalizing s with
  | nil => simp [startsWithL]
  | cons a as ih =>
    cases s with
    | nil =>
      simp only [startsWithL]
      constructor
      · intro h; exact absurd h (by simp)
      · rintro ⟨r, hr⟩; simp at hr
    | cons b bs =>
      simp only [startsWithL, Bool.and_eq_true, beq_iff_eq, ih]
      constructor
      · rintro ⟨rfl, r, rfl⟩; exact ⟨r, rfl⟩
      · rintro ⟨r, hr⟩
        rw [List.cons_append] at hr
        injection hr with h1 h2
        exact ⟨h1.symm, r, h2⟩

theorem containsSub_iff (p s : List Char) :
    containsSub p s = true ↔ ∃ u v, s = u ++ p ++ v := by
  induction s with
  | nil =>
    simp only [containsSub, startsWithL_iff]
    constructor
    · rintro ⟨r, hr⟩
      exact ⟨[], r, by simpa using hr⟩
    · rintro ⟨u, v, huv⟩
      have hu : u = [] := by
        cases u with
        | nil => rfl
        | cons x xs => simp at huv
      subst hu
      exact ⟨v, by simpa using huv⟩
  | cons c cs ih =>
    simp only [containsSub, Bool.or_eq_true, startsWithL_iff, ih]
    constructor
    · rintro (⟨r, hr⟩ | ⟨u, v, huv⟩)
      · exact ⟨[], r, by simpa using hr⟩
      · exact ⟨c :: u, v, by simp [huv]⟩
    · rintro ⟨u, v, huv⟩
      cases u with
      | nil => exact Or.inl ⟨v, by simpa using huv⟩
      | cons x xs =>
        rw [List.cons_append, List.cons_append] at huv
        injection huv with h1 h2
        exact Or.inr ⟨xs, v, by simp [h2]⟩

theorem containsSub_of_append (p q s : List Char)
    (h : containsSub (p ++ q) s = true) : containsSub p s = true := by
  rw [containsSub_iff] at h ⊢
  obtain ⟨u, v, huv⟩ := h
  exact ⟨u, q ++ v, by simp [huv]⟩

theorem mem_of_containsSub {p s : List Char} (h : containsSub p s = true) :
    ∀ c ∈ p, c ∈ s := by
  rw [containsSub_iff] at h
  obtain ⟨u, v, rfl⟩ := h
  intro c hc
  simp [List.mem_append]
  tauto

theorem spanP_head_neg {p : Char → Bool} {c : Char} (s : List Char)
    (h : p c = false) : spanP p (c :: s) = ([], c :: s) := by
  simp [spanP, h]

theorem spanP_head_pos {p : Char → Bool} {c : Char} (s : List Char)
    (h : p c = true) : spanP p (c :: s) = (c :: (spanP p s).1, (spanP p s).2) := by
  simp [spanP, h]

theorem spanP_append_all {p : Char → Bool} (xs : List Char) {y : Char} (r : List Char)
    (hall : ∀ c ∈ xs, p c = true) (hy : p y = false) :
    spanP p (xs ++ y :: r) = (xs, y :: r) := by
  induction xs with
  | nil => simpa using spanP_head_neg r hy
  | cons x xs ih =>
    have hx : p x = true := hall x (by simp)
    rw [List.cons_append, spanP_head_pos _ hx, ih (fun c hc => hall c (by simp [hc]))]

theorem spanP_snd_length_le (p : Char → Bool) (s : List Char) :
    (spanP p s).2.length ≤ s.length := by
  induction s with
  | nil => simp [spanP]
  | cons c cs ih =>
    by_cases h : p c = true
    · rw [spanP_head_pos _ h]; simpa using Nat.le_succ_of_le ih
    · rw [spanP_head_neg _ (by simpa using h)]

/-- Python whitespace: the exact character set matched by `\s` in a `str`
pattern, which is also the set recognised by `str.isspace()` and stripped
by `str.strip()` — U+0009..U+000D, U+001C..U+001F, the space, U+0085,
U+00A0, U+1680, U+2000..U+200A, U+2028, U+2029, U+202F, U+205F, U+3000. -/
def pySpace (c : Char) : Bool :=
  (0x09 ≤ c.toNat && c.toNat ≤ 0x0d) ||
  (0x1c ≤ c.toNat && c.toNat ≤ 0x20) ||
  c.toNat == 0x85 || c.toNat == 0xa0 || c.toNat == 0x1680 ||
  (0x2000 ≤ c.toNat && c.toNat ≤ 0x200a) ||
  c.toNat == 0x2028 || c.toNat == 0x2029 || c.toNat == 0x202f ||
  c.toNat == 0x205f || c.toNat == 0x3000

/-- Model of the regex fragment `\s*(P+)` under Python's backtracking, for a
character class `P` that contains every whitespace character (true of both
`[^,)]` and `[^)]`).  Greedily takes whitespace, then the longest nonempty
run of `P`-characters; if that run is empty the engine backtracks `\s*` by
one character, making the group the last whitespace character.  Returns the
captured group and the rest of the input (the position where the next
pattern element is tried). -/
def grpOne (p : Char → Bool) (s : List Char) : Option (List Char × List Char) :=
  let ws := spanP pySpace s
  let gs := spanP p ws.2
  if gs.1.isEmpty then
    match ws.1.getLast? with
    | some wl => some ([wl], gs.2)
    | none => none
  else some (gs.1, gs.2)

/-- Model of matching `\s*([^,)]+),\s*([^)]+)\)` at the start of `s`
(the part of a two-argument pattern after the literal `console.M(`).
Returns the two captured groups and the input remaining after the match. -/
def matchTwo (s : List Char) : Option (List Char × List Char × List Char) :=
  match grpOne (fun c => !(c == ',' || c == ')')) s with
  | none => none
  | some (g1, r1) =>
    match r1 with
    | ',' :: r2 =>
      match grpOne (fun c => !(c == ')')) r2 with
      | none => none
      | some (g2, r3) =>
        match r3 with
        | ')' :: r4 => some (g1, g2, r4)
        | _ => none
    | _ => none

/-- Model of matching `\s*([^)]+)\)` at the start of `s`
(the part of a one-argument pattern after the literal `console.M(`). -/
def matchOne (s : List Char) : Option (List Char × List Char) :=
  match grpOne (fun c => !(c == ')')) s with
  | none => none
  | some (g, r1) =>
    match r1 with
    | ')' :: r2 => some (g, r2)
    | _ => none

theorem grpOne_some_le {p : Char → Bool} {s g r : List Char}
    (h : grpOne p s = some (g, r)) : r.length ≤ s.length := by
  unfold grpOne at h
  by_cases he : (spanP p (spanP pySpace s).2).1.isEmpty
  · simp only [he, if_true] at h
    cases hg : (spanP pySpace s).1.getLast? with
    | none => rw [hg] at h; exact absurd h (by simp)
    | some wl =>
      rw [hg] at h
      injection h with h1
      injection h1 with h1 h2
      subst h2
      exact le_trans (spanP_snd_length_le _ _) (spanP_snd_length_le _ _)
  · simp only [he, if_false] at h
    injection h with h1
    injection h1 with h1 h2
    subst h2
    exact le_trans (spanP_snd_length_le _ _) (spanP_snd_length_le _ _)

theorem matchTwo_some_lt {s g1 g2 r : List Char}
    (h : matchTwo s = some (g1, g2, r)) : r.length < s.length := by
  unfold matchTwo at h
  split at h
  · exact absurd h (by simp)
  · rename_i ga r1 heq1
    split at h
    · rename_i r2
      split at h
      · exact absurd h (by simp)
      · rename_i gb r3 heq2
        split at h
        · rename_i r4
          rw [Option.some.injEq] at h
          have h3 : r4 = r := congrArg (fun p => p.2.2) h
          subst h3
          have hr1 := grpOne_some_le heq1
          have hr3 := grpOne_some_le heq2
          simp only [List.length_cons] at hr1 hr3
          omega
        · exact absurd h (by simp)
    · exact absurd h (by simp)

theorem matchOne_some_lt {s g r : List Char}
    (h : matchOne s = some (g, r)) : r.length < s.length := by
  unfold matchOne at h
  split at h
  · exact absurd h (by simp)
  · rename_i ga r1 heq1
    split at h
    · rename_i r2
      rw [Option.some.injEq] at h
      have h2 : r2 = r := congrArg Prod.snd h
      subst h2
      have hr1 := grpOne_some_le heq1
      simp only [List.length_cons] at hr1
      omega
    · exact absurd h (by simp)

theorem grpOne_eval_main {p : Char → Bool} (c0 : Char) (a0 : List Char) {y : Char}
    (r : List Char) (hc0 : pySpace c0 = false)
    (hall : ∀ c ∈ c0 :: a0, p c = true) (hy : p y = false) :
    grpOne p ((c0 :: a0) ++ y :: r) = some (c0 :: a0, y :: r) := by
  have hws : spanP pySpace ((c0 :: a0) ++ y :: r) = ([], (c0 :: a0) ++ y :: r) := by
    rw [List.cons_append]
    exact spanP_head_neg _ hc0
  have hg : spanP p ((c0 :: a0) ++ y :: r) = (c0 :: a0, y :: r) :=
    spanP_append_all _ _ hall hy
  unfold grpOne
  rw [hws]
  simp only [hg, List.isEmpty_cons, if_false, Bool.false_eq_true]

theorem grpOne_eval_ws1 {p : Char → Bool} {w : Char} (d0 : Char) (b0 : List Char)
    {y : Char} (r : List Char) (hw : pySpace w = true) (hd0 : pySpace d0 = false)
    (hall : ∀ c ∈ d0 :: b0, p c = true) (hy : p y = false) :
    grpOne p (w :: ((d0 :: b0) ++ y :: r)) = some (d0 :: b0, y :: r) := by
  have hws : spanP pySpace (w :: ((d0 :: b0) ++ y :: r)) =
      ([w], (d0 :: b0) ++ y :: r) := by
    rw [spanP_head_pos _ hw, List.cons_append, spanP_head_neg _ hd0]
  have hg : spanP p ((d0 :: b0) ++ y :: r) = (d0 :: b0, y :: r) :=
    spanP_append_all _ _ hall hy
  unfold grpOne
  rw [hws]
  simp only [hg, List.isEmpty_cons, if_false, Bool.false_eq_true]

theorem matchTwo_eval (c0 : Char) (a0 : List Char) (d0 : Char) (b0 post : List Char)
    (hc0 : pySpace c0 = false) (hd0 : pySpace d0 = false)
    (ha : ∀ c ∈ c0 :: a0, c ≠ ',' ∧ c ≠ ')')
    (hb : ∀ c ∈ d0 :: b0, c ≠ ')') :
    matchTwo ((c0 :: a0) ++ ',' :: ' ' :: ((d0 :: b0) ++ ')' :: post)) =
      some (c0 :: a0, d0 :: b0, post) := by
  have h1 : grpOne (fun c => !(c == ',' || c == ')'))
      ((c0 :: a0) ++ ',' :: (' ' :: ((d0 :: b0) ++ ')' :: post))) =
      some (c0 :: a0, ',' :: (' ' :: ((d0 :: b0) ++ ')' :: post))) := by
    apply grpOne_eval_main _ _ _ hc0
    · intro c hc
      obtain ⟨h1, h2⟩ := ha c hc
      simp [h1, h2]
    · simp
  have h2 : grpOne (fun c => !(c == ')'))
      (' ' :: ((d0 :: b0) ++ ')' :: post)) = some (d0 :: b0, ')' :: post) := by
    apply grpOne_eval_ws1 _ _ _ (by simp [pySpace]) hd0
    · intro c hc
      simp [hb c hc]
    · simp
  unfold matchTwo
  simp only [h1]
  simp only [h2]

theorem matchOne_eval (c0 : Char) (a0 post : List Char)
    (hc0 : pySpace c0 = false) (ha : ∀ c ∈ c0 :: a0, c ≠ ')') :
    matchOne ((c0 :: a0) ++ ')' :: post) = some (c0 :: a0, post) := by
  have h1 : grpOne (fun c => !(c == ')')) ((c0 :: a0) ++ ')' :: post) =
      some (c0 :: a0, ')' :: post) := by
    apply grpOne_eval_main _ _ _ hc0
    · intro c hc
      simp [ha c hc]
    · simp
  unfold matchOne
  simp only [h1]

/-- On a one-argument call body `arg)` the two-argument matcher fails: the
first group extends to the closing parenthesis and the mandatory `,` is not
found there. -/
theorem matchTwo_onearg_none (c0 : Char) (a0 post : List Char)
    (hc0 : pySpace c0 = false) (ha : ∀ c ∈ c0 :: a0, c ≠ ',' ∧ c ≠ ')') :
    matchTwo ((c0 :: a0) ++ ')' :: post) = none := by
  have h1 : grpOne (fun c => !(c == ',' || c == ')'))
      ((c0 :: a0) ++ ')' :: post) = some (c0 :: a0, ')' :: post) := by
    apply grpOne_eval_main _ _ _ hc0
    · intro c hc
      obtain ⟨h1, h2⟩ := ha c hc
      simp [h1, h2]
    · simp
  unfold matchTwo
  simp only [h1]
  rfl

theorem matchTwo_nil : matchTwo [] = none := rfl

theorem matchOne_nil : matchOne [] = none := rfl

/-- Replacement template of a two-argument rule, e.g.
`logError(\1, "Error", \2)`: function name, group 1, literal label as
second argument, group 2. -/
def replTwoR (fn lbl g1 g2 : List Char) : List Char :=
  fn ++ ('(' :: (g1 ++ (", \"".data ++ (lbl ++ ("\", ".data ++ (g2 ++ [')']))))))

/-- Replacement template of a one-argument rule, e.g. `logError(\1, "Error")`. -/
def replOneR (fn lbl g : List Char) : List Char :=
  fn ++ ('(' :: (g ++ (", \"".data ++ (lbl ++ "\")".data))))

/-- Fuel-indexed `re.subn` loop for a two-argument pattern with literal
prefix `lit` (i.e. `console.M(`): scan left to right, at each position try
the literal and then `matchTwo`; on a match emit the replacement and resume
after the match (non-overlapping), otherwise copy one character.  Returns
the rewritten text and the number of replacements.  The fuel only enforces
structural recursion; it never runs out when it starts at the input length. -/
def subnTwoF (lit fn lbl : List Char) : Nat → List Char → List Char × Nat
  | 0, s => (s, 0)
  | _ + 1, [] => ([], 0)
  | fuel + 1, c :: cs =>
    if startsWithL lit (c :: cs) then
      match matchTwo ((c :: cs).drop lit.length) with
      | some (g1, g2, rest) =>
        let r := subnTwoF lit fn lbl fuel rest
        (replTwoR fn lbl g1 g2 ++ r.1, r.2 + 1)
      | none =>
        let r := subnTwoF lit fn lbl fuel cs
        (c :: r.1, r.2)
    else
      let r := subnTwoF lit fn lbl fuel cs
      (c :: r.1, r.2)

/-- The `re.subn` call for a two-argument pattern. -/
def subnTwo (lit fn lbl s : List Char) : List Char × Nat :=
  subnTwoF lit fn lbl s.length s

/-- Fuel-indexed `re.subn` loop for a one-argument pattern, as `subnTwoF`. -/
def subnOneF (lit fn lbl : List Char) : Nat → List Char → List Char × Nat
  | 0, s => (s, 0)
  | _ + 1, [] => ([], 0)
  | fuel + 1, c :: cs =>
    if startsWithL lit (c :: cs) then
      match matchOne ((c :: cs).drop lit.length) with
      | some (g, rest) =>
        let r := subnOneF lit fn lbl fuel rest
        (replOneR fn lbl g ++ r.1, r.2 + 1)
      | none =>
        let r := subnOneF lit fn lbl fuel cs
        (c :: r.1, r.2)
    else
      let r := subnOneF lit fn lbl fuel cs
      (c :: r.1, r.2)

/-- The `re.subn` call for a one-argument pattern. -/
def subnOne (lit fn lbl s : List Char) : List Char × Nat :=
  subnOneF lit fn lbl s.length s

theorem subnTwoF_fuel_irrel (lit fn lbl : List Char) :
    ∀ f1 : Nat, ∀ s : List Char, ∀ f2 : Nat, s.length ≤ f1 → s.length ≤ f2 →
      subnTwoF lit fn lbl f1 s = subnTwoF lit fn lbl f2 s := by
  intro f1
  induction f1 with
  | zero =>
    intro s f2 h1 _
    have hs : s = [] := List.length_eq_zero.mp (Nat.le_zero.mp h1)
    subst hs
    cases f2 <;> rfl
  | succ f ih =>
    intro s f2 h1 h2
    cases s with
    | nil => cases f2 <;> rfl
    | cons c cs =>
      cases f2 with
      | zero => simp at h2
      | succ f2' =>
        simp only [List.length_cons, Nat.succ_le_succ_iff] at h1 h2
        simp only [subnTwoF]
        by_cases hsw : startsWithL lit (c :: cs) = true
        · rw [hsw]
          simp only [if_true]
          cases hm : matchTwo ((c :: cs).drop lit.length) with
          | none => simp only [ih cs f2' h1 h2]
          | some g =>
            obtain ⟨g1, g2, rest⟩ := g
            have hlt : rest.length < (c :: cs).length :=
              lt_of_lt_of_le (matchTwo_some_lt hm)
                (by simpa using List.length_drop .. ▸ Nat.sub_le _ _)
            simp only [List.length_cons] at hlt
            simp only [ih rest f2' (by omega) (by omega)]
        · rw [Bool.not_eq_true] at hsw
          rw [hsw]
          simp only [Bool.false_eq_true, if_false]
          rw [ih cs f2' h1 h2]

theorem subnOneF_fuel_irrel (lit fn lbl : List Char) :
    ∀ f1 : Nat, ∀ s : List Char, ∀ f2 : Nat, s.length ≤ f1 → s.length ≤ f2 →
      subnOneF lit fn lbl f1 s = subnOneF lit fn lbl f2 s := by
  intro f1
  induction f1 with
  | zero =>
    intro s f2 h1 _
    have hs : s = [] := List.length_eq_zero.mp (Nat.le_zero.mp h1)
    subst hs
    cases f2 <;> rfl
  | succ f ih =>
    intro s f2 h1 h2
    cases s with
    | nil => cases f2 <;> rfl
    | cons c cs =>
      cases f2 with
      | zero => simp at h2
      | succ f2' =>
        simp only [List.length_cons, Nat.succ_le_succ_iff] at h1 h2
        simp only [subnOneF]
        by_cases hsw : startsWithL lit (c :: cs) = true
        · rw [hsw]
          simp only [if_true]
          cases hm : matchOne ((c :: cs).drop lit.length) with
          | none => simp only [ih cs f2' h1 h2]
          | some g =>
            obtain ⟨g1, rest⟩ := g
            have hlt : rest.length < (c :: cs).length :=
              lt_of_lt_of_le (matchOne_some_lt hm)
                (by simpa using List.length_drop .. ▸ Nat.sub_le _ _)
            simp only [List.length_cons] at hlt
            simp only [ih rest f2' (by omega) (by omega)]
        · rw [Bool.not_eq_true] at hsw
          rw [hsw]
          simp only [Bool.false_eq_true, if_false]
          rw [ih cs f2' h1 h2]

theorem subnTwo_nil (lit fn lbl : List Char) : subnTwo lit fn lbl [] = ([], 0) := rfl

theorem subnOne_nil (lit fn lbl : List Char) : subnOne lit fn lbl [] = ([], 0) := rfl

theorem subnTwo_step_match {lit : List Char} (fn lbl : List Char) {s g1 g2 rest : List Char}
    (h1 : startsWithL lit s = true)
    (h2 : matchTwo (s.drop lit.length) = some (g1, g2, rest)) :
    subnTwo lit fn lbl s =
      (replTwoR fn lbl g1 g2 ++ (subnTwo lit fn lbl rest).1,
       (subnTwo lit fn lbl rest).2 + 1) := by
  cases s with
  | nil =>
    cases lit with
    | nil => rw [List.drop_nil] at h2; exact absurd h2 (by rw [matchTwo_nil]; simp)
    | cons a as => exact absurd h1 (by simp [startsWithL])
  | cons c cs =>
    have hle : rest.length ≤ cs.length := by
      have := matchTwo_some_lt h2
      have hd : (List.drop lit.length (c :: cs)).length ≤ (c :: cs).length := by
        rw [List.length_drop]; omega
      simp only [List.length_cons] at hd
      omega
    show subnTwoF lit fn lbl (cs.length + 1) (c :: cs) = _
    simp only [subnTwoF, h1, if_true, h2]
    rw [subnTwoF_fuel_irrel lit fn lbl cs.length rest rest.length hle (le_refl _)]
    rfl

theorem subnOne_step_match {lit : List Char} (fn lbl : List Char) {s g rest : List Char}
    (h1 : startsWithL lit s = true)
    (h2 : matchOne (s.drop lit.length) = some (g, rest)) :
    subnOne lit fn lbl s =
      (replOneR fn lbl g ++ (subnOne lit fn lbl rest).1,
       (subnOne lit fn lbl rest).2 + 1) := by
  cases s with
  | nil =>
    cases lit with
    | nil => rw [List.drop_nil] at h2; exact absurd h2 (by rw [matchOne_nil]; simp)
    | cons a as => exact absurd h1 (by simp [startsWithL])
  | cons c cs =>
    have hle : rest.length ≤ cs.length := by
      have := matchOne_some_lt h2
      have hd : (List.drop lit.length (c :: cs)).length ≤ (c :: cs).length := by
        rw [List.length_drop]; omega
      simp only [List.length_cons] at hd
      omega
    show subnOneF lit fn lbl (cs.length + 1) (c :: cs) = _
    simp only [subnOneF, h1, if_true, h2]
    rw [subnOneF_fuel_irrel lit fn lbl cs.length rest rest.length hle (le_refl _)]
    rfl

theorem subnTwo_step_skip {lit : List Char} (fn lbl : List Char) {c : Char} {cs : List Char}
    (h : startsWithL lit (c :: cs) = false ∨ matchTwo ((c :: cs).drop lit.length) = none) :
    subnTwo lit fn lbl (c :: cs) =
      (c :: (subnTwo lit fn lbl cs).1, (subnTwo lit fn lbl cs).2) := by
  show subnTwoF lit fn lbl (cs.length + 1) (c :: cs) = _
  rcases h with h | h
  · simp only [subnTwoF, h, Bool.false_eq_true, if_false]
    rfl
  · simp only [subnTwoF, h]
    by_cases hsw : startsWithL lit (c :: cs) = true
    · simp only [hsw, if_true]
      rfl
    · rw [Bool.not_eq_true] at hsw
      simp only [hsw, Bool.false_eq_true, if_false]
      rfl

theorem subnOne_step_skip {lit : List Char} (fn lbl : List Char) {c : Char} {cs : List Char}
    (h : startsWithL lit (c :: cs) = false ∨ matchOne ((c :: cs).drop lit.length) = none) :
    subnOne lit fn lbl (c :: cs) =
      (c :: (subnOne lit fn lbl cs).1, (subnOne lit fn lbl cs).2) := by
  show subnOneF lit fn lbl (cs.length + 1) (c :: cs) = _
  rcases h with h | h
  · simp only [subnOneF, h, Bool.false_eq_true, if_false]
    rfl
  · simp only [subnOneF, h]
    by_cases hsw : startsWithL lit (c :: cs) = true
    · simp only [hsw, if_true]
      rfl
    · rw [Bool.not_eq_true] at hsw
      simp only [hsw, Bool.false_eq_true, if_false]
      rfl

/-- If the pattern's literal prefix occurs nowhere in `s`, the substitution
is the identity with zero replacements. -/
theorem subnTwo_not_contains {lit : List Char} (fn lbl : List Char) {s : List Char}
    (h : containsSub lit s = false) : subnTwo lit fn lbl s = (s, 0) := by
  induction s with
  | nil => rfl
  | cons c cs ih =>
    simp only [containsSub, Bool.or_eq_false_iff] at h
    rw [subnTwo_step_skip fn lbl (Or.inl h.1), ih h.2]

theorem subnOne_not_contains {lit : List Char} (fn lbl : List Char) {s : List Char}
    (h : containsSub lit s = false) : subnOne lit fn lbl s = (s, 0) := by
  induction s with
  | nil => rfl
  | cons c cs ih =>
    simp only [containsSub, Bool.or_eq_false_iff] at h
    rw [subnOne_step_skip fn lbl (Or.inl h.1), ih h.2]

/-- Zero replacements means the text is returned unchanged. -/
theorem subnTwo_count_zero {lit : List Char} (fn lbl : List Char) {s : List Char}
    (h : (subnTwo lit fn lbl s).2 = 0) : (subnTwo lit fn lbl s).1 = s := by
  induction s with
  | nil => rfl
  | cons c cs ih =>
    by_cases hsw : startsWithL lit (c :: cs) = true
    · cases hm : matchTwo ((c :: cs).drop lit.length) with
      | none =>
        rw [subnTwo_step_skip fn lbl (Or.inr hm)] at h ⊢
        simp only at h ⊢
        rw [ih h]
      | some g =>
        obtain ⟨g1, g2, rest⟩ := g
        rw [subnTwo_step_match fn lbl hsw hm] at h
        simp at h
    · rw [Bool.not_eq_true] at hsw
      rw [subnTwo_step_skip fn lbl (Or.inl hsw)] at h ⊢
      simp only at h ⊢
      rw [ih h]

theorem subnOne_count_zero {lit : List Char} (fn lbl : List Char) {s : List Char}
    (h : (subnOne lit fn lbl s).2 = 0) : (subnOne lit fn lbl s).1 = s := by
  induction s with
  | nil => rfl
  | cons c cs ih =>
    by_cases hsw : startsWithL lit (c :: cs) = true
    · cases hm : matchOne ((c :: cs).drop lit.length) with
      | none =>
        rw [subnOne_step_skip fn lbl (Or.inr hm)] at h ⊢
        simp only at h ⊢
        rw [ih h]
      | some g =>
        obtain ⟨g1, rest⟩ := g
        rw [subnOne_step_match fn lbl hsw hm] at h
        simp at h
    · rw [Bool.not_eq_true] at hsw
      rw [subnOne_step_skip fn lbl (Or.inl hsw)] at h ⊢
      simp only at h ⊢
      rw [ih h]

/-- One pattern/replacement pair of `replace_console_statements`:
console method name, whether it is the two-argument form, replacement
function name and severity label. -/
structure Rule where
  mname : List Char
  two : Bool
  fn : List Char
  lbl : List Char
deriving DecidableEq

/-- The literal regex prefix `console.M(` of a rule. -/
def ruleLit (r : Rule) : List Char :=
  "console.".data ++ (r.mname ++ ['('])

/-- Apply one pattern/replacement pair (one `re.subn` call). -/
def applyRule (r : Rule) (c : List Char) : List Char × Nat :=
  if r.two then subnTwo (ruleLit r) r.fn r.lbl c
  else subnOne (ruleLit r) r.fn r.lbl c

/-- The five console methods recognised by the script. -/
inductive CMethod where
  | error | warn | info | debug | log
deriving DecidableEq

/-- Console method name as written in the pattern. -/
def mnameOf : CMethod → List Char
  | .error => "error".data
  | .warn => "warn".data
  | .info => "info".data
  | .debug => "debug".data
  | .log => "log".data

/-- Replacement function for each method (`console.log` maps to `logDebug`). -/
def fnOf : CMethod → List Char
  | .error => "logError".data
  | .warn => "logWarn".data
  | .info => "logInfo".data
  | .debug => "logDebug".data
  | .log => "logDebug".data

/-- Severity label inserted by each rule. -/
def lblOf : CMethod → List Char
  | .error => "Error".data
  | .warn => "Warning".data
  | .info => "Info".data
  | .debug => "Debug".data
  | .log => "Debug".data

/-- Two-argument rule of a method. -/
def ruleTwo (m : CMethod) : Rule := ⟨mnameOf m, true, fnOf m, lblOf m⟩

/-- One-argument rule of a method. -/
def ruleOne (m : CMethod) : Rule := ⟨mnameOf m, false, fnOf m, lblOf m⟩

/-- The `patterns` list of `replace_console_statements`, in source order:
for each method the two-argument pattern first, then the one-argument one;
methods ordered error, warn, info, debug, log. -/
def rules : List Rule :=
  [ruleTwo .error, ruleOne .error,
   ruleTwo .warn, ruleOne .warn,
   ruleTwo .info, ruleOne .info,
   ruleTwo .debug, ruleOne .debug,
   ruleTwo .log, ruleOne .log]

/-- The `for pattern, replacement in patterns` loop: thread the text through
every rule, summing the replacement counts. -/
def foldRules (rs : List Rule) (acc : List Char × Nat) : List Char × Nat :=
  rs.foldl (fun a r =>
    let p := applyRule r a.1
    (p.1, a.2 + p.2)) acc

/-- Model of `replace_console_statements`: apply the ten pattern/replacement pairs in
order, returning the rewritten text and the total number of replacements. -/
def replace_console_statements (content : List Char) : List Char × Nat :=
  foldRules rules (content, 0)

theorem foldRules_cons (r : Rule) (rs : List Rule) (c : List Char) (n : Nat) :
    foldRules (r :: rs) (c, n) =
      foldRules rs ((applyRule r c).1, n + (applyRule r c).2) := rfl

theorem applyRule_id {r : Rule} {c : List Char}
    (h : containsSub (ruleLit r) c = false) : applyRule r c = (c, 0) := by
  unfold applyRule
  by_cases ht : r.two = true
  · rw [if_pos ht]
    exact subnTwo_not_contains _ _ h
  · rw [if_neg ht]
    exact subnOne_not_contains _ _ h

theorem foldRules_id {rs : List Rule} {c : List Char} (n : Nat)
    (h : ∀ r ∈ rs, applyRule r c = (c, 0)) : foldRules rs (c, n) = (c, n) := by
  induction rs with
  | nil => rfl
  | cons r rs ih =>
    rw [foldRules_cons, h r (by simp)]
    exact ih (fun r' hr' => h r' (by simp [hr']))

theorem foldRules_count_mono (rs : List Rule) (c : List Char) (n : Nat) :
    n ≤ (foldRules rs (c, n)).2 := by
  induction rs generalizing c n with
  | nil => exact le_refl _
  | cons r rs ih =>
    rw [foldRules_cons]
    exact le_trans (Nat.le_add_right _ _) (ih _ _)

theorem applyRule_count_zero {r : Rule} {c : List Char}
    (h : (applyRule r c).2 = 0) : applyRule r c = (c, 0) := by
  unfold applyRule at h ⊢
  by_cases ht : r.two = true
  · rw [if_pos ht] at h ⊢
    rw [Prod.ext_iff]
    exact ⟨subnTwo_count_zero _ _ h, h⟩
  · rw [if_neg ht] at h ⊢
    rw [Prod.ext_iff]
    exact ⟨subnOne_count_zero _ _ h, h⟩

/-- If a run of rules adds nothing to the count, it leaves the text alone. -/
theorem foldRules_count_fix {rs : List Rule} {c : List Char} {n : Nat}
    (h : (foldRules rs (c, n)).2 = n) : foldRules rs (c, n) = (c, n) := by
  induction rs generalizing c n with
  | nil => rfl
  | cons r rs ih =>
    rw [foldRules_cons] at h ⊢
    have hmono := foldRules_count_mono rs (applyRule r c).1 (n + (applyRule r c).2)
    rw [h] at hmono
    have hz : (applyRule r c).2 = 0 := by omega
    have hfix := applyRule_count_zero hz
    rw [hfix] at h ⊢
    simpa using ih (by simpa using h)

/-- Index of the first occurrence of `x` (Python `tuple.index`; if `x` is
absent returns the length, but the script only calls it under an `in` test). -/
def idxOfStr (x : List Char) : List (List Char) → Nat
  | [] => 0
  | p :: ps => if p = x then 0 else idxOfStr x ps + 1

/-- Repetition of a string, as Python `"../" * depth`. -/
def repeatStr : Nat → List Char → List Char
  | 0, _ => []
  | n + 1, s => s ++ repeatStr n s

/-- Model of `get_relative_logger_path`, with a path represented by its segments
(`Path(file_path).parts`, the file name included as the last segment). -/
def get_relative_logger_path (parts : List (List Char)) : List Char :=
  if "app".data ∈ parts then "../src/utils/logger".data
  else if "components".data ∈ parts ∧ "src".data ∉ parts then "../src/utils/logger".data
  else if "src".data ∈ parts then
    repeatStr (parts.length - idxOfStr "src".data parts - 1) "../".data ++ "utils/logger".data
  else "./src/utils/logger".data

/-- Python `str.strip()` (whitespace from both ends). -/
def pyStrip (l : List Char) : List Char :=
  ((l.dropWhile pySpace).reverse.dropWhile pySpace).reverse

/-- A line whose stripped form begins with the `import ` keyword. -/
def isImportLine (l : List Char) : Bool :=
  startsWithL "import ".data (pyStrip l)

/-- Model of `content.split('\n')`. -/
def splitNl : List Char → List (List Char)
  | [] => [[]]
  | c :: cs =>
    if c = '\n' then [] :: splitNl cs
    else
      match splitNl cs with
      | l :: ls => (c :: l) :: ls
      | [] => [[c]]

/-- Model of `'\n'.join(lines)`. -/
def joinNl : List (List Char) → List Char
  | [] => []
  | [l] => l
  | l :: ls => l ++ '\n' :: joinNl ls

/-- Python `list.insert(i, x)` (appends when the index is past the end). -/
def insertAt : List (List Char) → Nat → List Char → List (List Char)
  | ls, 0, x => x :: ls
  | [], _ + 1, x => [x]
  | l :: ls, i + 1, x => l :: insertAt ls i x

/-- Index of the last line that starts with the import keyword
(`last_import_index`; `none` plays the role of `-1`). -/
def lastImportIdx : List (List Char) → Option Nat
  | [] => none
  | l :: ls =>
    match lastImportIdx ls with
    | some j => some (j + 1)
    | none => if isImportLine l then some 0 else none

/-- The inserted import line, with the f-string's braces and quotes. -/
def loggerImportLine (parts : List (List Char)) : List Char :=
  "import \x7b logError, logWarn, logInfo, logDebug, logUserAction \x7d from \"".data ++ (get_relative_logger_path parts ++ "\";".data)

/-- The existing-import check of `add_logger_import`:
`'from' in content and 'utils/logger' in content`. -/
def importCheck (content : List Char) : Bool :=
  containsSub "from".data content && containsSub "utils/logger".data content

/-- Model of `add_logger_import`: returns the (possibly) new text, the Python
return flag, and the increment applied to the imports-added counter. -/
def add_logger_import (content : List Char) (parts : List (List Char)) :
    List Char × Bool × Nat :=
  if importCheck content then (content, false, 0)
  else
    let lines := splitNl content
    match lastImportIdx lines with
    | none => (joinNl (insertAt lines 0 (loggerImportLine parts)), true, 1)
    | some i => (joinNl (insertAt lines (i + 1) (loggerImportLine parts)), true, 1)

/-- The per-file text transformation of `process_file`: import insertion
followed by statement rewriting. -/
def process_text (parts : List (List Char)) (content : List Char) : List Char :=
  (replace_console_statements (add_logger_import content parts).1).1

/-- Last path component (after the final `/`). -/
def lastComponentAux (cur : List Char) : List Char → List Char
  | [] => cur
  | c :: cs => if c = '/' then lastComponentAux [] cs else lastComponentAux (cur ++ [c]) cs

/-- Model of `Path(...).suffix`: extension of the final component, empty when the
only dot is the leading one or there is no dot. -/
def pySuffix (path : List Char) : List Char :=
  let name := lastComponentAux [] path
  let sp := spanP (fun c => !(c == '.')) name.reverse
  match sp.2 with
  | [] => []
  | _ :: before => if before = [] then [] else '.' :: sp.1.reverse

/-- The excluded directory-name substrings of `should_process_file`. -/
def excludeDirs : List (List Char) :=
  ["node_modules".data, ".expo".data, "dist".data, "build".data, ".next".data,
   "__pycache__".data]

/-- Model of `should_process_file`: reject when any excluded name occurs anywhere in
the path string, then require a `.ts`/`.tsx` suffix. -/
def should_process_file (path : List Char) : Bool :=
  if excludeDirs.any (fun d => containsSub d path) then false
  else pySuffix path == ".ts".data || pySuffix path == ".tsx".data

/-- Outcome of one `process_file` call: the content written back (if any),
the Python return value, whether the `except` branch reported an error, and
the increments applied to the three run counters. -/
structure ProcOutcome where
  wrote : Option (List Char)
  retval : Bool
  errorReported : Bool
  dFiles : Nat
  dStatements : Nat
  dImports : Nat
deriving DecidableEq

/-- Model of `process_file`, with the fallible file system made explicit: `readRes`
is the result of the read (`none` = the read raised) and `writeOk` tells
whether a write would succeed.  Any raised error is caught by the
`except` branch (`errorReported`), never propagated.  Note that the counter
of imports added is incremented inside `add_logger_import` before the write
is attempted, so it stays incremented even when the write fails. -/
def process_file_run (parts : List (List Char)) (readRes : Option (List Char))
    (writeOk : Bool) : ProcOutcome :=
  match readRes with
  | none => ⟨none, false, true, 0, 0, 0⟩
  | some content =>
    if containsSub "console.".data content = false then ⟨none, false, false, 0, 0, 0⟩
    else
      if (replace_console_statements (add_logger_import content parts).1).1 ≠ content then
        if writeOk then
          ⟨some (replace_console_statements (add_logger_import content parts).1).1, true,
           false, 1, (replace_console_statements (add_logger_import content parts).1).2,
           (add_logger_import content parts).2.2⟩
        else ⟨none, false, true, 0, 0, (add_logger_import content parts).2.2⟩
      else ⟨none, false, false, 0, 0, (add_logger_import content parts).2.2⟩

/-- One directory entry seen by `find_files_with_console`: file name, full
path, and the result of reading it (`none` = the read raised). -/
structure FSEntry where
  name : List Char
  path : List Char
  read : Option (List Char)

/-- Model of `find_files_with_console` over an explicit list of walked entries: keep
`.ts`/`.tsx` files passing `should_process_file` whose read succeeds and
contains `console.`; a read error just skips the file (`continue`). -/
def find_files_with_console : List FSEntry → List (List Char)
  | [] => []
  | e :: es =>
    if endsWithL ".ts".data e.name || endsWithL ".tsx".data e.name then
      if should_process_file e.path then
        match e.read with
        | some c =>
          if containsSub "console.".data c then e.path :: find_files_with_console es
          else find_files_with_console es
        | none => find_files_with_console es
      else find_files_with_console es
    else find_files_with_console es

/-- One work item of the `run_cleanup` processing loop. -/
structure FileJob where
  parts : List (List Char)
  read : Option (List Char)
  writeOk : Bool

/-- The `for file_path in files_to_process: self.process_file(file_path)`
loop: every job is processed, whatever the outcome of the previous ones. -/
def runAll (jobs : List FileJob) : List ProcOutcome :=
  jobs.map (fun j => process_file_run j.parts j.read j.writeOk)

/-- Splitting at the unique `(` of a string: if neither side of either
decomposition contains `(` apart from the separators shown, the two
decompositions agree. -/
theorem parenSplit : ∀ (h0 : List Char) {tail : List Char} (u : List Char)
    {l0 v : List Char},
    h0 ++ '(' :: tail = u ++ (l0 ++ '(' :: v) → ('(') ∉ h0 → ('(') ∉ l0 →
    ('(') ∉ tail → h0 = u ++ l0 ∧ tail = v := by
  intro h0
  induction h0 with
  | nil =>
    intro tail u l0 v heq hh hl hta
    cases u with
    | nil =>
      cases l0 with
      | nil =>
        simp only [List.nil_append] at heq
        injection heq with _ h2
        exact ⟨rfl, h2⟩
      | cons d l0' =>
        simp only [List.nil_append, List.cons_append] at heq
        injection heq with h1 _
        subst h1
        exact (hl (List.mem_cons_self _ _)).elim
    | cons e u' =>
      simp only [List.nil_append, List.cons_append] at heq
      injection heq with h1 h2
      have : ('(') ∈ tail := by
        rw [h2]
        simp [List.mem_append]
      exact absurd this hta
  | cons c h0' ih =>
    intro tail u l0 v heq hh hl hta
    have hc : c ≠ '(' := fun hcc => hh (hcc ▸ List.mem_cons_self c h0')
    cases u with
    | nil =>
      cases l0 with
      | nil =>
        simp only [List.nil_append, List.cons_append] at heq
        injection heq with h1 _
        exact absurd h1 hc
      | cons d l0' =>
        simp only [List.nil_append, List.cons_append] at heq
        injection heq with h1 h2
        obtain ⟨ha, hb⟩ := ih [] (by simpa using h2)
          (fun hm => hh (List.mem_cons_of_mem c hm))
          (fun hm => hl (List.mem_cons_of_mem d hm)) hta
        subst h1
        exact ⟨by simp [ha], hb⟩
    | cons e u' =>
      simp only [List.cons_append] at heq
      injection heq with h1 h2
      obtain ⟨ha, hb⟩ := ih u' h2
        (fun hm => hh (List.mem_cons_of_mem c hm)) hl hta
      subst h1
      exact ⟨by simp [ha], hb⟩

/-- A pattern literal `l0 ++ "("` cannot occur in `h0 ++ "(" ++ tail` when
the only `(` is the shown one and `l0` is not a suffix of `h0`. -/
theorem notContains_litA {h0 l0 tail : List Char} (hta : ('(') ∉ tail)
    (hh : ('(') ∉ h0) (hl : ('(') ∉ l0)
    (hs : startsWithL l0.reverse h0.reverse = false) :
    containsSub (l0 ++ ['(']) (h0 ++ '(' :: tail) = false := by
  by_contra h'
  rw [Bool.not_eq_false, containsSub_iff] at h'
  obtain ⟨u, v, heq⟩ := h'
  have heq' : h0 ++ '(' :: tail = u ++ (l0 ++ '(' :: v) := by
    simpa [List.append_assoc] using heq
  obtain ⟨h1, -⟩ := parenSplit h0 u heq' hh hl hta
  have h2 : startsWithL l0.reverse h0.reverse = true := by
    rw [h1, List.reverse_append]
    exact startsWithL_self_append _ _
  rw [hs] at h2
  exact absurd h2 (by simp)

/-- A pattern starting with `c` and containing `(` cannot occur in
`h ++ t` when `h` is `c`-free and `t` is `(`-free. -/
theorem notContains_litB {pat h t : List Char} (hp : pat.head? = some 'c')
    (hp2 : ('(') ∈ pat) (hh : ∀ c ∈ h, c ≠ 'c') (ht : ('(') ∉ t) :
    containsSub pat (h ++ t) = false := by
  induction h with
  | nil =>
    simp only [List.nil_append]
    by_contra h'
    rw [Bool.not_eq_false] at h'
    exact absurd (mem_of_containsSub h' _ hp2) ht
  | cons c0 h' ih =>
    cases pat with
    | nil => simp at hp
    | cons a p' =>
      have ha : a = 'c' := by simpa using hp
      subst ha
      have hc0 : c0 ≠ 'c' := hh c0 (List.mem_cons_self c0 h')
      simp only [List.cons_append, containsSub, Bool.or_eq_false_iff]
      constructor
      · simp only [startsWithL, Bool.and_eq_false_iff]
        left
        simpa using fun hcc => hc0 hcc.symm
      · exact ih (fun c hc => hh c (List.mem_cons_of_mem c0 hc))

/-- The text `console.M` (the rule literal without its opening parenthesis). -/
def cbase (m : CMethod) : List Char :=
  "console.".data ++ mnameOf m

/-- The tail of `cbase` after its head character `c`. -/
def cbTail (m : CMethod) : List Char :=
  "onsole.".data ++ mnameOf m

/-- The text of a two-argument call `console.M(a, b)`. -/
def callTwo (m : CMethod) (a b : List Char) : List Char :=
  cbase m ++ '(' :: (a ++ ',' :: ' ' :: (b ++ [')']))

/-- The text of a one-argument call `console.M(a)`. -/
def callOne (m : CMethod) (a : List Char) : List Char :=
  cbase m ++ '(' :: (a ++ [')'])

/-- The rewritten two-argument call `logF(a, "Label", b)`. -/
def resultTwo (m : CMethod) (a b : List Char) : List Char :=
  replTwoR (fnOf m) (lblOf m) a b

/-- The rewritten one-argument call `logF(a, "Label")`. -/
def resultOne (m : CMethod) (a : List Char) : List Char :=
  replOneR (fnOf m) (lblOf m) a

theorem ruleLit_two_eq (m : CMethod) : ruleLit (ruleTwo m) = cbase m ++ ['('] := by
  simp [ruleLit, ruleTwo, cbase, List.append_assoc]

theorem ruleLit_one_eq (m : CMethod) : ruleLit (ruleOne m) = cbase m ++ ['('] := by
  simp [ruleLit, ruleOne, cbase, List.append_assoc]

theorem paren_not_mem_cbase (m : CMethod) : ('(') ∉ cbase m := by
  cases m <;> decide

theorem paren_not_mem_cbTail (m : CMethod) : ('(') ∉ cbTail m := by
  cases m <;> decide

theorem cbase_cons (m : CMethod) : cbase m = 'c' :: cbTail m := by
  cases m <;> rfl

theorem call_shape (m : CMethod) (t : List Char) :
    cbase m ++ '(' :: t = ruleLit (ruleTwo m) ++ t := by
  rw [ruleLit_two_eq, List.append_assoc]
  rfl

/-- A rule literal of method `mB` does not occur in a call text of method
`mA` when `console.mB` is not a suffix of `console.mA` and the call tail is
parenthesis-free. -/
theorem skip_lit (mA mB : CMethod) {t : List Char} (ht : ('(') ∉ t)
    (hs : startsWithL (cbase mB).reverse (cbase mA).reverse = false) :
    containsSub (cbase mB ++ ['(']) (cbase mA ++ '(' :: t) = false :=
  notContains_litA ht (paren_not_mem_cbase mA) (paren_not_mem_cbase mB) hs

/-- No rule literal occurs in the rewritten text of a two-argument rule. -/
theorem notContains_result_two (r : Rule) (m : CMethod) {a b : List Char}
    (ha : ('(') ∉ a) (hb : ('(') ∉ b) :
    containsSub (ruleLit r) (replTwoR (fnOf m) (lblOf m) a b) = false := by
  have hshape : replTwoR (fnOf m) (lblOf m) a b =
      (fnOf m ++ ['(']) ++
        (a ++ (", \"".data ++ (lblOf m ++ ("\", ".data ++ (b ++ [')']))))) := by
    simp [replTwoR, List.append_assoc]
  rw [hshape]
  apply notContains_litB
  · rfl
  · simp [ruleLit]
  · cases m <;> decide
  · intro hmem
    simp only [List.mem_append, List.mem_cons] at hmem
    rcases hmem with h | h
    · exact ha h
    rcases h with h | h
    · revert h; decide
    rcases h with h | h
    · cases m <;> revert h <;> decide
    rcases h with h | h
    · revert h; decide
    rcases h with h | h
    · exact hb h
    · revert h; decide

/-- No rule literal occurs in the rewritten text of a one-argument rule. -/
theorem notContains_result_one (r : Rule) (m : CMethod) {a : List Char}
    (ha : ('(') ∉ a) :
    containsSub (ruleLit r) (replOneR (fnOf m) (lblOf m) a) = false := by
  have hshape : replOneR (fnOf m) (lblOf m) a =
      (fnOf m ++ ['(']) ++ (a ++ (", \"".data ++ (lblOf m ++ "\")".data))) := by
    simp [replOneR, List.append_assoc]
  rw [hshape]
  apply notContains_litB
  · rfl
  · simp [ruleLit]
  · cases m <;> decide
  · intro hmem
    simp only [List.mem_append, List.mem_cons] at hmem
    rcases hmem with h | h
    · exact ha h
    rcases h with h | h
    · revert h; decide
    rcases h with h | h
    · cases m <;> revert h <;> decide
    · revert h; decide

theorem foldRules_step (r : Rule) (rs : List Rule) {c : List Char} (n : Nat)
    {c' : List Char} {k : Nat} (h : applyRule r c = (c', k)) :
    foldRules (r :: rs) (c, n) = foldRules rs (c', n + k) := by
  rw [foldRules_cons, h]

theorem ruleTwo_two (m : CMethod) : (ruleTwo m).two = true := rfl

theorem ruleOne_two (m : CMethod) : (ruleOne m).two = false := rfl

/-- The two-argument rule of method `m`, applied to exactly the call
`console.m(a, b)`, rewrites it to `logF(a, "Label", b)` and counts one
replacement. -/
theorem applyRule_two_match (m : CMethod) {c0 : Char} {a0 : List Char}
    {d0 : Char} {b0 : List Char} (h1 : pySpace c0 = false) (h2 : pySpace d0 = false)
    (ha : ∀ c ∈ c0 :: a0, c ≠ ',' ∧ c ≠ ')') (hb : ∀ c ∈ d0 :: b0, c ≠ ')') :
    applyRule (ruleTwo m) (callTwo m (c0 :: a0) (d0 :: b0)) =
      (resultTwo m (c0 :: a0) (d0 :: b0), 1) := by
  have hsh : callTwo m (c0 :: a0) (d0 :: b0) =
      ruleLit (ruleTwo m) ++ ((c0 :: a0) ++ ',' :: ' ' :: ((d0 :: b0) ++ ')' :: [])) := by
    rw [callTwo, call_shape]
  unfold applyRule
  rw [if_pos (ruleTwo_two m), hsh]
  have hsw : startsWithL (ruleLit (ruleTwo m))
      (ruleLit (ruleTwo m) ++ ((c0 :: a0) ++ ',' :: ' ' :: ((d0 :: b0) ++ ')' :: []))) = true :=
    startsWithL_self_append _ _
  have hmt : matchTwo ((ruleLit (ruleTwo m) ++
      ((c0 :: a0) ++ ',' :: ' ' :: ((d0 :: b0) ++ ')' :: []))).drop
        (ruleLit (ruleTwo m)).length) = some (c0 :: a0, d0 :: b0, []) := by
    rw [List.drop_left]
    exact matchTwo_eval c0 a0 d0 b0 [] h1 h2 ha hb
  rw [subnTwo_step_match _ _ hsw hmt, subnTwo_nil]
  simp [resultTwo, ruleTwo]

/-- The one-argument rule of method `m`, applied to exactly the call
`console.m(a)`, rewrites it to `logF(a, "Label")` and counts one
replacement. -/
theorem applyRule_one_match (m : CMethod) {c0 : Char} {a0 : List Char}
    (h1 : pySpace c0 = false) (ha : ∀ c ∈ c0 :: a0, c ≠ ')') :
    applyRule (ruleOne m) (callOne m (c0 :: a0)) = (resultOne m (c0 :: a0), 1) := by
  have hsh : callOne m (c0 :: a0) =
      ruleLit (ruleTwo m) ++ ((c0 :: a0) ++ ')' :: []) := by
    rw [callOne, call_shape]
  have hlit : ruleLit (ruleOne m) = ruleLit (ruleTwo m) := by
    rw [ruleLit_one_eq, ruleLit_two_eq]
  unfold applyRule
  rw [if_neg (by rw [ruleOne_two]; simp), hsh, hlit]
  have hsw : startsWithL (ruleLit (ruleTwo m))
      (ruleLit (ruleTwo m) ++ ((c0 :: a0) ++ ')' :: [])) = true :=
    startsWithL_self_append _ _
  have hmt : matchOne ((ruleLit (ruleTwo m) ++
      ((c0 :: a0) ++ ')' :: [])).drop (ruleLit (ruleTwo m)).length) =
      some (c0 :: a0, []) := by
    rw [List.drop_left]
    exact matchOne_eval c0 a0 [] h1 ha
  rw [subnOne_step_match _ _ hsw hmt, subnOne_nil]
  simp [resultOne, ruleOne]

/-- The two-argument rule of method `m` does not fire on the one-argument
call `console.m(a)`: its first group runs into `)` where `,` is required. -/
theorem applyRule_two_onearg (m : CMethod) {c0 : Char} {a0 : List Char}
    (h1 : pySpace c0 = false) (ha : ∀ c ∈ c0 :: a0, c ≠ ',' ∧ c ≠ ')')
    (hpa : ('(') ∉ c0 :: a0) :
    applyRule (ruleTwo m) (callOne m (c0 :: a0)) = (callOne m (c0 :: a0), 0) := by
  have hsh : callOne m (c0 :: a0) =
      ruleLit (ruleTwo m) ++ ((c0 :: a0) ++ ')' :: []) := by
    rw [callOne, call_shape]
  have hcons : callOne m (c0 :: a0) =
      'c' :: (cbTail m ++ '(' :: ((c0 :: a0) ++ [')'])) := by
    rw [callOne, cbase_cons]
    rfl
  have hmt : matchTwo ((('c' :: (cbTail m ++ '(' :: ((c0 :: a0) ++ [')'])))).drop
      (ruleLit (ruleTwo m)).length) = none := by
    rw [← hcons, hsh, List.drop_left]
    exact matchTwo_onearg_none c0 a0 [] h1 ha
  have hrest : containsSub (ruleLit (ruleTwo m))
      (cbTail m ++ '(' :: ((c0 :: a0) ++ [')'])) = false := by
    rw [ruleLit_two_eq]
    apply notContains_litA
    · intro hmem
      simp only [List.mem_append, List.mem_cons, List.mem_singleton] at hmem
      rcases hmem with h | h
      · exact hpa (by simpa using h)
      · revert h; decide
    · exact paren_not_mem_cbTail m
    · exact paren_not_mem_cbase m
    · cases m <;> decide
  unfold applyRule
  rw [if_pos (ruleTwo_two m), hcons]
  rw [subnTwo_step_skip _ _ (Or.inr hmt),
      subnTwo_not_contains _ _ hrest]

/-- C1: for every recognized two-argument console call
`console.M(arg1, arg2)` (M one of error/warn/info/debug/log) whose
arguments contain no commas, parentheses or line breaks (and do not start
with whitespace, so that the `\s*` of the pattern captures nothing),
`replace_console_statements` rewrites it to the corresponding
structured-log call, preserving both arguments in order and inserting the
severity label as the second argument, with exactly one replacement
counted; in particular `console.error(err, extraInfo)` becomes
`logError(err, "Error", extraInfo)`. -/
theorem claim1_two_argument_calls (m : CMethod) (c0 : Char) (a0 : List Char)
    (d0 : Char) (b0 : List Char)
    (h1 : pySpace c0 = false) (h2 : pySpace d0 = false)
    (h3 : ∀ c ∈ c0 :: a0, ¬(c = ',' ∨ c = '(' ∨ c = ')' ∨ c = '\n' ∨ c = '\r'))
    (h4 : ∀ c ∈ d0 :: b0, ¬(c = ',' ∨ c = '(' ∨ c = ')' ∨ c = '\n' ∨ c = '\r')) :
    replace_console_statements (callTwo m (c0 :: a0) (d0 :: b0)) =
      (resultTwo m (c0 :: a0) (d0 :: b0), 1) := by
  have ha_nc : ∀ c ∈ c0 :: a0, c ≠ ',' ∧ c ≠ ')' := fun c hc =>
    ⟨fun h => h3 c hc (Or.inl h), fun h => h3 c hc (Or.inr (Or.inr (Or.inl h)))⟩
  have hb_nc : ∀ c ∈ d0 :: b0, c ≠ ')' := fun c hc h =>
    h4 c hc (Or.inr (Or.inr (Or.inl h)))
  have hpa : ('(') ∉ c0 :: a0 := fun hm => h3 _ hm (Or.inr (Or.inl rfl))
  have hpb : ('(') ∉ d0 :: b0 := fun hm => h4 _ hm (Or.inr (Or.inl rfl))
  have htail : ('(') ∉ (c0 :: a0) ++ ',' :: ' ' :: ((d0 :: b0) ++ [')']) := by
    intro hmem
    simp only [List.mem_append, List.mem_cons, List.mem_singleton] at hmem
    rcases hmem with h | h
    · exact hpa (by simpa using h)
    rcases h with h | h
    · revert h; decide
    rcases h with h | h
    · revert h; decide
    rcases h with h | h
    · exact hpb (by simpa using h)
    · revert h; decide
  have hskip : ∀ mB : CMethod,
      startsWithL (cbase mB).reverse (cbase m).reverse = false →
      applyRule (ruleTwo mB) (callTwo m (c0 :: a0) (d0 :: b0)) =
          (callTwo m (c0 :: a0) (d0 :: b0), 0) ∧
        applyRule (ruleOne mB) (callTwo m (c0 :: a0) (d0 :: b0)) =
          (callTwo m (c0 :: a0) (d0 :: b0), 0) := by
    intro mB hs
    have hcon : containsSub (cbase mB ++ ['(']) (callTwo m (c0 :: a0) (d0 :: b0)) = false := by
      rw [callTwo]
      exact skip_lit m mB htail hs
    exact ⟨applyRule_id (by rw [ruleLit_two_eq]; exact hcon),
           applyRule_id (by rw [ruleLit_one_eq]; exact hcon)⟩
  have hmatch := applyRule_two_match m h1 h2 ha_nc hb_nc
  have hpost : ∀ rs : List Rule,
      foldRules rs (resultTwo m (c0 :: a0) (d0 :: b0), 1) =
        (resultTwo m (c0 :: a0) (d0 :: b0), 1) := fun rs =>
    foldRules_id 1 (fun r _ => applyRule_id (notContains_result_two r m hpa hpb))
  cases m with
  | error =>
    show foldRules rules _ = _
    rw [show rules = ruleTwo .error :: [ruleOne .error, ruleTwo .warn, ruleOne .warn,
      ruleTwo .info, ruleOne .info, ruleTwo .debug, ruleOne .debug,
      ruleTwo .log, ruleOne .log] from rfl]
    rw [foldRules_step _ _ 0 hmatch]
    simpa using hpost _
  | warn =>
    show foldRules rules _ = _
    rw [show rules = ruleTwo .error :: ruleOne .error :: ruleTwo .warn ::
      [ruleOne .warn, ruleTwo .info, ruleOne .info, ruleTwo .debug, ruleOne .debug,
       ruleTwo .log, ruleOne .log] from rfl]
    rw [foldRules_step _ _ 0 (hskip .error (by decide)).1,
        foldRules_step _ _ _ (hskip .error (by decide)).2,
        foldRules_step _ _ _ hmatch]
    simpa using hpost _
  | info =>
    show foldRules rules _ = _
    rw [show rules = ruleTwo .error :: ruleOne .error :: ruleTwo .warn :: ruleOne .warn ::
      ruleTwo .info :: [ruleOne .info, ruleTwo .debug, ruleOne .debug,
      ruleTwo .log, ruleOne .log] from rfl]
    rw [foldRules_step _ _ 0 (hskip .error (by decide)).1,
        foldRules_step _ _ _ (hskip .error (by decide)).2,
        foldRules_step _ _ _ (hskip .warn (by decide)).1,
        foldRules_step _ _ _ (hskip .warn (by decide)).2,
        foldRules_step _ _ _ hmatch]
    simpa using hpost _
  | debug =>
    show foldRules rules _ = _
    rw [show rules = ruleTwo .error :: ruleOne .error :: ruleTwo .warn :: ruleOne .warn ::
      ruleTwo .info :: ruleOne .info :: ruleTwo .debug :: [ruleOne .debug,
      ruleTwo .log, ruleOne .log] from rfl]
    rw [foldRules_step _ _ 0 (hskip .error (by decide)).1,
        foldRules_step _ _ _ (hskip .error (by decide)).2,
        foldRules_step _ _ _ (hskip .warn (by decide)).1,
        foldRules_step _ _ _ (hskip .warn (by decide)).2,
        foldRules_step _ _ _ (hskip .info (by decide)).1,
        foldRules_step _ _ _ (hskip .info (by decide)).2,
        foldRules_step _ _ _ hmatch]
    simpa using hpost _
  | log =>
    show foldRules rules _ = _
    rw [show rules = ruleTwo .error :: ruleOne .error :: ruleTwo .warn :: ruleOne .warn ::
      ruleTwo .info :: ruleOne .info :: ruleTwo .debug :: ruleOne .debug ::
      ruleTwo .log :: [ruleOne .log] from rfl]
    rw [foldRules_step _ _ 0 (hskip .error (by decide)).1,
        foldRules_step _ _ _ (hskip .error (by decide)).2,
        foldRules_step _ _ _ (hskip .warn (by decide)).1,
        foldRules_step _ _ _ (hskip .warn (by decide)).2,
        foldRules_step _ _ _ (hskip .info (by decide)).1,
        foldRules_step _ _ _ (hskip .info (by decide)).2,
        foldRules_step _ _ _ (hskip .debug (by decide)).1,
        foldRules_step _ _ _ (hskip .debug (by decide)).2,
        foldRules_step _ _ _ hmatch]
    simpa using hpost _

/-- C1 witness: `console.error(err, extraInfo)` becomes
`logError(err, "Error", extraInfo)` with one replacement. -/
theorem claim1_witness :
    replace_console_statements "console.error(err, extraInfo)".data =
      ("logError(err, \"Error\", extraInfo)".data, 1) := by
  have h := claim1_two_argument_calls .error 'e' "rr".data 'e' "xtraInfo".data
    (by decide) (by decide) (by decide) (by decide)
  have e1 : "console.error(err, extraInfo)".data =
      callTwo .error ('e' :: "rr".data) ('e' :: "xtraInfo".data) := by decide
  have e2 : resultTwo .error ('e' :: "rr".data) ('e' :: "xtraInfo".data) =
      "logError(err, \"Error\", extraInfo)".data := by decide
  rw [e1, h, e2]

/-- C2: for every recognized one-argument console call `console.M(arg)`
whose argument contains no commas (so there is no trailing comma-separated
second argument), no parentheses and no line breaks (and does not start
with whitespace), `replace_console_statements` rewrites it to a call with
exactly two arguments — the original message followed by the severity
label — counting one replacement; the generic `console.log` maps to
`logDebug` with label `"Debug"`, so `console.log("Login failed")` becomes
`logDebug("Login failed", "Debug")`. -/
theorem claim2_one_argument_calls (m : CMethod) (c0 : Char) (a0 : List Char)
    (h1 : pySpace c0 = false)
    (h3 : ∀ c ∈ c0 :: a0, ¬(c = ',' ∨ c = '(' ∨ c = ')' ∨ c = '\n' ∨ c = '\r')) :
    replace_console_statements (callOne m (c0 :: a0)) =
      (resultOne m (c0 :: a0), 1) := by
  have ha_nc : ∀ c ∈ c0 :: a0, c ≠ ',' ∧ c ≠ ')' := fun c hc =>
    ⟨fun h => h3 c hc (Or.inl h), fun h => h3 c hc (Or.inr (Or.inr (Or.inl h)))⟩
  have ha1 : ∀ c ∈ c0 :: a0, c ≠ ')' := fun c hc => (ha_nc c hc).2
  have hpa : ('(') ∉ c0 :: a0 := fun hm => h3 _ hm (Or.inr (Or.inl rfl))
  have htail : ('(') ∉ (c0 :: a0) ++ [')'] := by
    intro hmem
    simp only [List.mem_append, List.mem_singleton] at hmem
    rcases hmem with h | h
    · exact hpa h
    · revert h; decide
  have hskip : ∀ mB : CMethod,
      startsWithL (cbase mB).reverse (cbase m).reverse = false →
      applyRule (ruleTwo mB) (callOne m (c0 :: a0)) = (callOne m (c0 :: a0), 0) ∧
        applyRule (ruleOne mB) (callOne m (c0 :: a0)) = (callOne m (c0 :: a0), 0) := by
    intro mB hs
    have hcon : containsSub (cbase mB ++ ['(']) (callOne m (c0 :: a0)) = false := by
      rw [callOne]
      exact skip_lit m mB htail hs
    exact ⟨applyRule_id (by rw [ruleLit_two_eq]; exact hcon),
           applyRule_id (by rw [ruleLit_one_eq]; exact hcon)⟩
  have hpass := applyRule_two_onearg m h1 ha_nc hpa
  have hmatch := applyRule_one_match m h1 ha1
  have hpost : ∀ rs : List Rule,
      foldRules rs (resultOne m (c0 :: a0), 1) = (resultOne m (c0 :: a0), 1) := fun rs =>
    foldRules_id 1 (fun r _ => applyRule_id (notContains_result_one r m hpa))
  cases m with
  | error =>
    show foldRules rules _ = _
    rw [show rules = ruleTwo .error :: ruleOne .error :: [ruleTwo .warn, ruleOne .warn,
      ruleTwo .info, ruleOne .info, ruleTwo .debug, ruleOne .debug,
      ruleTwo .log, ruleOne .log] from rfl]
    rw [foldRules_step _ _ 0 hpass, foldRules_step _ _ _ hmatch]
    simpa using hpost _
  | warn =>
    show foldRules rules _ = _
    rw [show rules = ruleTwo .error :: ruleOne .error :: ruleTwo .warn :: ruleOne .warn ::
      [ruleTwo .info, ruleOne .info, ruleTwo .debug, ruleOne .debug,
       ruleTwo .log, ruleOne .log] from rfl]
    rw [foldRules_step _ _ 0 (hskip .error (by decide)).1,
        foldRules_step _ _ _ (hskip .error (by decide)).2,
        foldRules_step _ _ _ hpass, foldRules_step _ _ _ hmatch]
    simpa using hpost _
  | info =>
    show foldRules rules _ = _
    rw [show rules = ruleTwo .error :: ruleOne .error :: ruleTwo .warn :: ruleOne .warn ::
      ruleTwo .info :: ruleOne .info :: [ruleTwo .debug, ruleOne .debug,
      ruleTwo .log, ruleOne .log] from rfl]
    rw [foldRules_step _ _ 0 (hskip .error (by decide)).1,
        foldRules_step _ _ _ (hskip .error (by decide)).2,
        foldRules_step _ _ _ (hskip .warn (by decide)).1,
        foldRules_step _ _ _ (hskip .warn (by decide)).2,
        foldRules_step _ _ _ hpass, foldRules_step _ _ _ hmatch]
    simpa using hpost _
  | debug =>
    show foldRules rules _ = _
    rw [show rules = ruleTwo .error :: ruleOne .error :: ruleTwo .warn :: ruleOne .warn ::
      ruleTwo .info :: ruleOne .info :: ruleTwo .debug :: ruleOne .debug ::
      [ruleTwo .log, ruleOne .log] from rfl]
    rw [foldRules_step _ _ 0 (hskip .error (by decide)).1,
        foldRules_step _ _ _ (hskip .error (by decide)).2,
        foldRules_step _ _ _ (hskip .warn (by decide)).1,
        foldRules_step _ _ _ (hskip .warn (by decide)).2,
        foldRules_step _ _ _ (hskip .info (by decide)).1,
        foldRules_step _ _ _ (hskip .info (by decide)).2,
        foldRules_step _ _ _ hpass, foldRules_step _ _ _ hmatch]
    simpa using hpost _
  | log =>
    show foldRules rules _ = _
    rw [show rules = ruleTwo .error :: ruleOne .error :: ruleTwo .warn :: ruleOne .warn ::
      ruleTwo .info :: ruleOne .info :: ruleTwo .debug :: ruleOne .debug ::
      ruleTwo .log :: ruleOne .log :: [] from rfl]
    rw [foldRules_step _ _ 0 (hskip .error (by decide)).1,
        foldRules_step _ _ _ (hskip .error (by decide)).2,
        foldRules_step _ _ _ (hskip .warn (by decide)).1,
        foldRules_step _ _ _ (hskip .warn (by decide)).2,
        foldRules_step _ _ _ (hskip .info (by decide)).1,
        foldRules_step _ _ _ (hskip .info (by decide)).2,
        foldRules_step _ _ _ (hskip .debug (by decide)).1,
        foldRules_step _ _ _ (hskip .debug (by decide)).2,
        foldRules_step _ _ _ hpass, foldRules_step _ _ _ hmatch]
    simpa using hpost _

/-- C2 witness: `console.log("Login failed")` becomes
`logDebug("Login failed", "Debug")` with one replacement. -/
theorem claim2_witness :
    replace_console_statements "console.log(\"Login failed\")".data =
      ("logDebug(\"Login failed\", \"Debug\")".data, 1) := by
  have h := claim2_one_argument_calls .log '\"' "Login failed\"".data
    (by decide) (by decide)
  have e1 : "console.log(\"Login failed\")".data =
      callOne .log ('\"' :: "Login failed\"".data) := by decide
  have e2 : resultOne .log ('\"' :: "Login failed\"".data) =
      "logDebug(\"Login failed\", \"Debug\")".data := by decide
  rw [e1, h, e2]

set_option maxRecDepth 100000

set_option maxHeartbeats 1000000

/-- Text with no `console.` substring is left unchanged by the rewriter. -/
theorem replace_no_console {t : List Char}
    (h : containsSub "console.".data t = false) :
    replace_console_statements t = (t, 0) := by
  have hnc : ∀ r : Rule, containsSub (ruleLit r) t = false := by
    intro r
    by_contra hx
    rw [Bool.not_eq_false] at hx
    have h2 : containsSub "console.".data t = true :=
      containsSub_of_append "console.".data (r.mname ++ ['(']) _ hx
    rw [h] at h2
    exact absurd h2 (by simp)
  show foldRules rules (t, 0) = (t, 0)
  exact foldRules_id 0 (fun r _ => applyRule_id (hnc r))

/-- A text passing the import check and free of `console.` is a fixed
point of the per-file transformation. -/
theorem process_text_fixed (parts : List (List Char)) {t : List Char}
    (h1 : importCheck t = true)
    (h2 : containsSub "console.".data t = false) :
    process_text parts t = t := by
  unfold process_text
  have haddeq : add_logger_import t parts = (t, false, 0) := by
    unfold add_logger_import
    rw [if_pos h1]
  rw [haddeq, replace_no_console h2]

/-- C3 counterexample: on an input containing
`console.log(console.log(x)` the first run leaves behind the text
`logDebug(console.log(x, "Debug")` (the unmatched inner call is re-emitted
inside the captured group of the one-argument rule, now followed by a
comma), the import-detection substring check succeeds on the
once-transformed text, and a second run rewrites the leftover again: the
per-file transformation is not idempotent as claimed. -/
theorem claim3_counterexample :
    importCheck (process_text ["cleanup.ts".data]
        "fromutils/logger console.log(console.log(x)".data) = true ∧
      process_text ["cleanup.ts".data]
          (process_text ["cleanup.ts".data]
            "fromutils/logger console.log(console.log(x)".data) ≠
        process_text ["cleanup.ts".data]
          "fromutils/logger console.log(console.log(x)".data := by
  have e1 : process_text ["cleanup.ts".data]
      "fromutils/logger console.log(console.log(x)".data =
      "fromutils/logger logDebug(console.log(x, \"Debug\")".data := by decide
  have e2 : process_text ["cleanup.ts".data]
      "fromutils/logger logDebug(console.log(x, \"Debug\")".data =
      "fromutils/logger logDebug(logDebug(x, \"Debug\", \"Debug\")".data := by decide
  rw [e1, e2]
  exact ⟨by decide, by decide⟩

/-- C3 (amended): applying the per-file transformation a second time
produces no additional change provided the import-detection substring
check succeeds on the once-transformed text AND the once-transformed text
no longer contains the target substring `console.` (the tool's own
detection condition).  Without the second condition the original claim
fails on nested unbalanced calls. -/
theorem claim3_idempotent_when_clean (parts : List (List Char)) (content : List Char)
    (h1 : importCheck (process_text parts content) = true)
    (h2 : containsSub "console.".data (process_text parts content) = false) :
    process_text parts (process_text parts content) = process_text parts content :=
  process_text_fixed parts h1 h2

/-- C3 witness for the amended claim: the first run removes every target
call of the input, and the second run changes nothing. -/
theorem claim3_witness :
    process_text ["a.ts".data]
        (process_text ["a.ts".data] "fromutils/logger console.log(a)".data) =
      process_text ["a.ts".data] "fromutils/logger console.log(a)".data :=
  claim3_idempotent_when_clean ["a.ts".data] "fromutils/logger console.log(a)".data
    (by decide) (by decide)

theorem splitNl_ne_nil (s : List Char) : splitNl s ≠ [] := by
  induction s with
  | nil => simp [splitNl]
  | cons c cs ih =>
    simp only [splitNl]
    by_cases hc : c = '\n'
    · rw [if_pos hc]; simp
    · rw [if_neg hc]
      cases h : splitNl cs with
      | nil => simp
      | cons l ls => simp

theorem joinNl_cons (x : List Char) (ls : List (List Char)) (h : ls ≠ []) :
    joinNl (x :: ls) = x ++ '\n' :: joinNl ls := by
  cases ls with
  | nil => exact absurd rfl h
  | cons a as => rfl

theorem joinNl_splitNl (s : List Char) : joinNl (splitNl s) = s := by
  induction s with
  | nil => rfl
  | cons c cs ih =>
    simp only [splitNl]
    by_cases hc : c = '\n'
    · rw [if_pos hc, joinNl_cons _ _ (splitNl_ne_nil cs), ih, hc]
      rfl
    · rw [if_neg hc]
      cases h : splitNl cs with
      | nil => exact absurd h (splitNl_ne_nil cs)
      | cons l ls =>
        rw [h] at ih
        cases ls with
        | nil =>
          show joinNl [c :: l] = c :: cs
          have hl : joinNl [l] = cs := ih
          show c :: l = c :: cs
          rw [show l = cs from hl]
        | cons l2 ls2 =>
          show joinNl ((c :: l) :: l2 :: ls2) = c :: cs
          rw [joinNl_cons _ _ (by simp), List.cons_append]
          rw [joinNl_cons _ _ (by simp)] at ih
          rw [ih]

theorem insertAt_ne_nil (ls : List (List Char)) (i : Nat) (x : List Char) :
    insertAt ls i x ≠ [] := by
  cases ls with
  | nil => cases i <;> simp [insertAt]
  | cons l ls' => cases i <;> simp [insertAt]

theorem joinNl_insertAt_length (ls : List (List Char)) (i : Nat) (x : List Char)
    (h : ls ≠ []) :
    (joinNl (insertAt ls i x)).length = (joinNl ls).length + x.length + 1 := by
  induction ls generalizing i with
  | nil => exact absurd rfl h
  | cons l ls' ih =>
    cases i with
    | zero =>
      show (joinNl (x :: l :: ls')).length = _
      rw [joinNl_cons _ _ (by simp)]
      simp [List.length_append]
      omega
    | succ i' =>
      show (joinNl (l :: insertAt ls' i' x)).length = _
      cases ls' with
      | nil =>
        rw [show insertAt [] i' x = [x] from by cases i' <;> rfl]
        rw [joinNl_cons _ _ (by simp)]
        simp [List.length_append, joinNl]
        omega
      | cons l2 ls2 =>
        rw [joinNl_cons _ _ (insertAt_ne_nil _ _ _),
            joinNl_cons _ _ (by simp : (l2 :: ls2 : List (List Char)) ≠ [])]
        simp only [List.length_append, List.length_cons]
        rw [ih i' (by simp)]
        omega

/-- When the import check fails, `add_logger_import` inserts the import
line (in either branch), returns flag `True`, increments the counter by
one, and makes the text longer by the line plus one newline. -/
theorem add_logger_import_inserts (content : List Char) (parts : List (List Char))
    (h : importCheck content = false) :
    (add_logger_import content parts).2.1 = true ∧
      (add_logger_import content parts).2.2 = 1 ∧
      (add_logger_import content parts).1.length =
        content.length + (loggerImportLine parts).length + 1 := by
  unfold add_logger_import
  rw [if_neg (by rw [h]; simp)]
  cases hl : lastImportIdx (splitNl content) with
  | none =>
    simp only [hl]
    refine ⟨trivial, trivial, ?_⟩
    rw [joinNl_insertAt_length _ _ _ (splitNl_ne_nil content), joinNl_splitNl]
  | some i =>
    simp only [hl]
    refine ⟨trivial, trivial, ?_⟩
    rw [joinNl_insertAt_length _ _ _ (splitNl_ne_nil content), joinNl_splitNl]

theorem process_file_run_some (parts : List (List Char)) (content : List Char)
    (w : Bool) :
    process_file_run parts (some content) w =
      if containsSub "console.".data content = false then ⟨none, false, false, 0, 0, 0⟩
      else
        if (replace_console_statements (add_logger_import content parts).1).1 ≠ content then
          if w then
            ⟨some (replace_console_statements (add_logger_import content parts).1).1, true,
             false, 1, (replace_console_statements (add_logger_import content parts).1).2,
             (add_logger_import content parts).2.2⟩
          else ⟨none, false, true, 0, 0, (add_logger_import content parts).2.2⟩
        else ⟨none, false, false, 0, 0, (add_logger_import content parts).2.2⟩ := rfl

/-- C4: a file whose content does not contain the target substring
`console.` is returned from early: no write happens, no counter moves, and
the file stays byte-for-byte unchanged. -/
theorem claim4_no_target_no_write (parts : List (List Char)) (content : List Char)
    (w : Bool) (h : containsSub "console.".data content = false) :
    process_file_run parts (some content) w = ⟨none, false, false, 0, 0, 0⟩ := by
  rw [process_file_run_some, if_pos h]

/-- C4 witness: a file with no `console.` substring is untouched. -/
theorem claim4_witness :
    process_file_run [] (some "const x = compute();\n".data) true =
      ⟨none, false, false, 0, 0, 0⟩ :=
  claim4_no_target_no_write [] "const x = compute();\n".data true (by decide)

/-- C5: when the existing-import substring check succeeds (`from` and
`utils/logger` both occur in the text), `add_logger_import` returns the
text unchanged with flag `False` and a zero increment of the imports-added
counter, so no duplicate import line is ever inserted. -/
theorem claim5_existing_import (content : List Char) (parts : List (List Char))
    (h1 : containsSub "from".data content = true)
    (h2 : containsSub "utils/logger".data content = true) :
    add_logger_import content parts = (content, false, 0) := by
  unfold add_logger_import
  rw [if_pos (by rw [importCheck, h1, h2]; rfl)]

/-- C5 witness: a file already importing the logger is left alone however
many target calls it contains. -/
theorem claim5_witness :
    add_logger_import
        "import x from \"../utils/logger\";\nconsole.log(a)\nconsole.log(b)".data [] =
      ("import x from \"../utils/logger\";\nconsole.log(a)\nconsole.log(b)".data,
       false, 0) :=
  claim5_existing_import _ [] (by decide) (by decide)

/-- C9: a file containing `console.` on which no rewrite pattern fires and
whose existing-import check fails is still modified: the import line is
inserted, the file is written back, the files-processed and imports-added
counters are incremented, and statements-replaced gains zero. -/
theorem claim9_import_only_write (parts : List (List Char)) (content : List Char)
    (h1 : containsSub "console.".data content = true)
    (h2 : importCheck content = false)
    (h3 : (replace_console_statements (add_logger_import content parts).1).2 = 0) :
    process_file_run parts (some content) true =
      ⟨some (add_logger_import content parts).1, true, false, 1, 0, 1⟩ := by
  have hins := add_logger_import_inserts content parts h2
  have hrep : replace_console_statements (add_logger_import content parts).1 =
      ((add_logger_import content parts).1, 0) :=
    foldRules_count_fix h3
  have hne : (add_logger_import content parts).1 ≠ content := by
    intro he
    have h4 := hins.2.2
    rw [he] at h4
    omega
  rw [process_file_run_some, if_neg (by rw [h1]; simp), hrep]
  rw [if_pos (by simpa using hne), if_pos rfl]
  rw [hins.2.1]

/-- C9 witness: `console.table(1)` contains `console.` but matches no
rewrite pattern; the file is still written (import line added), counted as
processed, with zero statements replaced. -/
theorem claim9_witness :
    process_file_run ["a.ts".data] (some "console.table(1)".data) true =
      ⟨some (add_logger_import "console.table(1)".data ["a.ts".data]).1, true,
       false, 1, 0, 1⟩ :=
  claim9_import_only_write ["a.ts".data] "console.table(1)".data
    (by decide) (by decide) (by decide)

theorem idxOfStr_append_first (x : List Char) (pre post : List (List Char))
    (h : x ∉ pre) : idxOfStr x (pre ++ x :: post) = pre.length := by
  induction pre with
  | nil => simp [idxOfStr]
  | cons p ps ih =>
    have hp : p ≠ x := fun he => h (he ▸ List.mem_cons_self p ps)
    simp only [List.cons_append, idxOfStr, if_neg hp, List.length_cons, List.append_eq]
    rw [ih (fun hm => h (List.mem_cons_of_mem p hm))]

/-- C6: for a path containing a `src` segment (and not hitting the `app`
branch; the `components`-without-`src` branch is impossible here),
`get_relative_logger_path` goes up (segment count − index of the first
`src` segment − 1) levels and then into `utils/logger`; with several `src`
segments the first one determines the depth. -/
theorem claim6_src_depth (pre post : List (List Char))
    (h1 : "src".data ∉ pre)
    (h2 : "app".data ∉ pre ++ "src".data :: post) :
    get_relative_logger_path (pre ++ "src".data :: post) =
      repeatStr ((pre ++ "src".data :: post).length - pre.length - 1) "../".data ++
        "utils/logger".data := by
  have hsrc : "src".data ∈ pre ++ "src".data :: post := by simp
  unfold get_relative_logger_path
  rw [if_neg h2, if_neg (fun hc => hc.2 hsrc), if_pos hsrc,
      idxOfStr_append_first _ _ _ h1]

/-- C6 witness: in `proj/src/screens/src/login.ts` the first `src` (index
1 of 5 segments) gives depth 3. -/
theorem claim6_witness :
    get_relative_logger_path
        ["proj".data, "src".data, "screens".data, "src".data, "login.ts".data] =
      "../../../utils/logger".data := by
  have h := claim6_src_depth ["proj".data]
    ["screens".data, "src".data, "login.ts".data] (by decide) (by decide)
  exact h.trans (by decide)

/-- C7: for a path containing an `app` segment, or containing `components`
but no `src`, `get_relative_logger_path` returns the fixed relative path
`../src/utils/logger` to the logging module. -/
theorem claim7_fixed_path (parts : List (List Char))
    (h : "app".data ∈ parts ∨ ("components".data ∈ parts ∧ "src".data ∉ parts)) :
    get_relative_logger_path parts = "../src/utils/logger".data := by
  unfold get_relative_logger_path
  rcases h with h | h
  · rw [if_pos h]
  · by_cases ha : "app".data ∈ parts
    · rw [if_pos ha]
    · rw [if_neg ha, if_pos h]

/-- C7 witness: both branch shapes produce the fixed path. -/
theorem claim7_witness :
    get_relative_logger_path ["app".data, "screen.tsx".data] =
        "../src/utils/logger".data ∧
      get_relative_logger_path ["components".data, "Button.tsx".data] =
        "../src/utils/logger".data :=
  ⟨claim7_fixed_path _ (Or.inl (by decide)),
   claim7_fixed_path _ (Or.inr ⟨by decide, by decide⟩)⟩

/-- C10: `should_process_file` rejects every path whose string contains one
of the excluded directory names anywhere — including inside a file name,
so `redistribute.ts` (containing `dist`) and `builder.ts` (containing
`build`) are excluded even outside any excluded directory. -/
theorem claim10_substring_exclusion (path : List Char)
    (h : excludeDirs.any (fun d => containsSub d path) = true) :
    should_process_file path = false := by
  unfold should_process_file
  rw [if_pos h]

/-- C10 witness: the two file names from the claim are rejected although
they are `.ts` files in no excluded directory. -/
theorem claim10_witness :
    should_process_file "redistribute.ts".data = false ∧
      should_process_file "builder.ts".data = false :=
  ⟨claim10_substring_exclusion _ (by decide),
   claim10_substring_exclusion _ (by decide)⟩

/-- C8: error handling of the two failure domains.  (a) Every path produced
by the detection scan comes from an entry whose read succeeded — a file
whose read raises is silently excluded.  (b) The processing loop handles
every file (one outcome per job, never aborting); a read error inside
`process_file` is caught, reported, nothing is written and no counter
moves; and a write error (a file with target calls whose transformed text
would be written back, when the write raises) is likewise caught and
reported, nothing is written, and the files/statements counters stay put
(the imports counter was already mutated before the write, as in the
source) — in every case the loop carries on with the next file. -/
theorem claim8_error_containment :
    ∀ (entries : List FSEntry) (jobs : List FileJob) (parts : List (List Char))
      (w : Bool) (c : List Char),
      (∀ p ∈ find_files_with_console entries,
        ∃ e ∈ entries, e.read ≠ none ∧ e.path = p) ∧
        (runAll jobs).length = jobs.length ∧
        process_file_run parts none w = ⟨none, false, true, 0, 0, 0⟩ ∧
        (containsSub "console.".data c = true →
          (replace_console_statements (add_logger_import c parts).1).1 ≠ c →
          process_file_run parts (some c) false =
            ⟨none, false, true, 0, 0, (add_logger_import c parts).2.2⟩) := by
  intro entries jobs parts w c
  refine ⟨?_, by simp [runAll], rfl, ?_⟩
  case refine_2 =>
    intro hc hne
    rw [process_file_run_some, if_neg (by rw [hc]; simp),
        if_pos hne, if_neg (by simp)]
  intro p hp
  induction entries with
  | nil => simp [find_files_with_console] at hp
  | cons e es ih =>
    simp only [find_files_with_console] at hp
    by_cases hA : (endsWithL ".ts".data e.name || endsWithL ".tsx".data e.name) = true
    · rw [if_pos hA] at hp
      by_cases hB : should_process_file e.path = true
      · rw [if_pos hB] at hp
        cases hr : e.read with
        | none =>
          simp only [hr] at hp
          obtain ⟨e', he', h3, h4⟩ := ih hp
          exact ⟨e', List.mem_cons_of_mem _ he', h3, h4⟩
        | some c =>
          simp only [hr] at hp
          split at hp
          · rcases List.mem_cons.mp hp with rfl | hp'
            · exact ⟨e, List.mem_cons_self _ _, by rw [hr]; simp, rfl⟩
            · obtain ⟨e', he', h3, h4⟩ := ih hp'
              exact ⟨e', List.mem_cons_of_mem _ he', h3, h4⟩
          · obtain ⟨e', he', h3, h4⟩ := ih hp
            exact ⟨e', List.mem_cons_of_mem _ he', h3, h4⟩
      · rw [if_neg hB] at hp
        obtain ⟨e', he', h3, h4⟩ := ih hp
        exact ⟨e', List.mem_cons_of_mem _ he', h3, h4⟩
    · rw [if_neg hA] at hp
      obtain ⟨e', he', h3, h4⟩ := ih hp
      exact ⟨e', List.mem_cons_of_mem _ he', h3, h4⟩

/-- C8 witness: a read error is reported and leaves everything untouched;
an empty run processes all (zero) files; and a failing write on a file
with a rewritable target call is caught and reported with nothing written
and files/statements counters unchanged. -/
theorem claim8_witness :
    process_file_run [] none true = ⟨none, false, true, 0, 0, 0⟩ ∧
      (runAll []).length = 0 ∧
      process_file_run [] (some "fromutils/logger console.log(a)".data) false =
        ⟨none, false, true, 0, 0,
         (add_logger_import "fromutils/logger console.log(a)".data []).2.2⟩ :=
  ⟨(claim8_error_containment [] [] [] true []).2.2.1,
   (claim8_error_containment [] [] [] true []).2.1,
   (claim8_error_containment [] [] [] true
       "fromutils/logger console.log(a)".data).2.2.2 (by decide) (by decide)⟩
